import Mathlib

/-!
Shallow embedding of `l2rpn_baselines/utils/DeepQAgent.py` (DeepQAgent class):
the observation conversion, the epsilon schedule, the episode-reset logic,
the per-frame update loop, the process-buffer conversion, and the training
loop `train` itself.  External collaborators (the grid2op environment and the
Q-network) are abstracted into an `Oracle` of response functions; numeric
values are modelled as rationals, except the epsilon schedule, whose claims
hinge on rounding and are settled against an exact model of the source's
IEEE binary64 float arithmetic (`F64` below).
-/

namespace DeepQAgentSpec

/-- A grid2op observation, restricted to the three fields `convert_obs` reads
(`rho`, `line_status`, `topo_vect`), each modelled as a flat numeric vector. -/
structure Observation where
  rho : List ℚ
  line_status : List ℚ
  topo_vect : List ℚ
deriving DecidableEq, Repr

/-- `DeepQAgent.convert_obs`: `np.concatenate((observation.rho,
observation.line_status, observation.topo_vect))`. -/
def convert_obs (o : Observation) : List ℚ :=
  o.rho ++ o.line_status ++ o.topo_vect

/-- Modelled from the spec: the `TrainingParam` parameter bag (its source file
is not under `src/`); the spec calls it a "static configuration bag (buffer
size, minibatch size, epsilon schedule, frame count) read-only during
training", with epsilon decayed "over a configured number of steps". -/
structure TrainingParam where
  NUM_FRAMES : ℕ
  INITIAL_EPSILON : ℚ
  FINAL_EPSILON : ℚ
  EPSILON_DECAY : ℕ
  MIN_OBSERVATION : ℕ
  MINIBATCH_SIZE : ℕ
  BUFFER_SIZE : ℕ
deriving DecidableEq, Repr

/-- The epsilon update of `train` (lines 116-117) as bookkeeping inside the
loop model, over the idealized exact rationals the rest of the loop state
uses.  The epsilon *claims* are settled against `epsUpdateF` below, which
models the source's IEEE binary64 arithmetic faithfully; this rational
version only threads the `epsilon` slot of `LoopState` and is not relied on
for any epsilon property. -/
def epsUpdate (tp : TrainingParam) (e : ℚ) : ℚ :=
  if tp.FINAL_EPSILON < e then
    e - (tp.INITIAL_EPSILON - tp.FINAL_EPSILON) / (tp.EPSILON_DECAY : ℚ)
  else
    e

/-- `DeepQAgent._init_local_train_loop`: `reward = 0.; done = False`. -/
def _init_local_train_loop : ℚ × Bool := (0, false)

/-- `DeepQAgent._init_global_train_loop`: `alive_frame = 0;
total_reward = 0.0`. -/
def _init_global_train_loop : ℕ × ℚ := (0, 0)

/-- The local variables threaded through the frame loop of one iteration. -/
structure LoopVars where
  done : Bool
  reward : ℚ
  total_reward : ℚ
  alive_frame : ℕ
deriving DecidableEq, Repr

/-- `DeepQAgent._update_loop`: accumulates `temp_reward` into `total_reward`,
overwrites `done` with `temp_done`, bumps `alive_frame` (resetting it to 0 on
`done`) and returns `(done, reward, total_reward, alive_frame)` — note that
the returned `reward` is the argument `reward`, unchanged. -/
def _update_loop (done : Bool) (temp_reward : ℚ) (temp_done : Bool)
    (alive_frame : ℕ) (total_reward reward : ℚ) : LoopVars :=
  let total_reward := total_reward + temp_reward
  let done := temp_done
  let alive_frame := alive_frame + 1
  let alive_frame := if done then 0 else alive_frame
  { done := done, reward := reward, total_reward := total_reward,
    alive_frame := alive_frame }

/-- `DeepQAgent._reset_process_buffer`: `self.process_buffer = []`. -/
def _reset_process_buffer : List (List ℚ) := []

/-- Result of `DeepQAgent._need_reset`: the (possibly bumped) epoch counter,
whether `env.reset()` was called, whether the chronics were reshuffled, and
the process buffer afterwards. -/
structure ResetResult where
  epoch_num : ℕ
  didReset : Bool
  didShuffle : Bool
  process_buffer : List (List ℚ)
deriving DecidableEq, Repr

/-- `DeepQAgent._need_reset` (lines 171-181): on `done or observation_num ==
0` it clears the process buffer, resets the environment, seeds the buffer
with the converted new observation and bumps `epoch_num`; it reshuffles the
chronics only when the bumped `epoch_num` is a multiple of
`len(env.chronics_handler.real_data.subpaths)`. -/
def _need_reset (nSubpaths : ℕ) (newObs : Observation)
    (observation_num epoch_num : ℕ) (done : Bool)
    (process_buffer : List (List ℚ)) : ResetResult :=
  if done || observation_num == 0 then
    let pb := _reset_process_buffer ++ [convert_obs newObs]
    let epoch := epoch_num + 1
    { epoch_num := epoch, didReset := true,
      didShuffle := epoch % nSubpaths == 0, process_buffer := pb }
  else
    { epoch_num := epoch_num, didReset := false, didShuffle := false,
      process_buffer := process_buffer }

/-- `DeepQAgent._convert_process_buffer` (lines 189-196): raises
`RuntimeError` whenever `NUM_FRAMES != 1`; otherwise
`np.concatenate(self.process_buffer).reshape(1, -1)`, which raises
`ValueError` on an empty buffer and flattens it otherwise. -/
def _convert_process_buffer (tp : TrainingParam) (pb : List (List ℚ)) :
    Except String (List ℚ) :=
  if tp.NUM_FRAMES != 1 then
    Except.error "RuntimeError: This h_need_resetas not been tested with self.training_param.NUM_FRAMES != 1 for now"
  else if pb.isEmpty then
    Except.error "ValueError: need at least one array to concatenate"
  else
    Except.ok pb.flatten

/-- A transition record as handed to `ReplayBuffer.add` by
`_store_new_state`: `(state, action, reward, done, next state)`. -/
structure Transition where
  s : List ℚ
  a : ℕ
  r : ℚ
  d : Bool
  s2 : List ℚ
deriving DecidableEq, Repr

/-- Modelled from the spec: `ReplayBuffer.add` (its source file is not under
`src/`); the spec describes a "fixed-capacity collection of transition
records; evicts oldest on overflow". -/
def rbAdd (cap : ℕ) (buf : List Transition) (t : Transition) :
    List Transition :=
  let b := buf ++ [t]
  if cap < b.length then b.drop (b.length - cap) else b

/-- `DeepQAgent.save` (lines 60-62): writes the network weights under
`os.path.join(path, self.name)` when `path` is not `None`, and writes nothing
otherwise.  Returns the write target. -/
def save (name : String) : Option String → Option String
  | none => none
  | some p => some (p ++ "/" ++ name)

/-- The external collaborators of `train`, abstracted into response
functions: the environment (`env.step` outcomes indexed by a global frame
counter, `env.reset()` observations indexed by the iteration), and the
Q-network (finiteness of the loss trained at an iteration, and the action
chosen at an iteration). -/
structure Oracle where
  stepReward : ℕ → ℚ
  stepDone : ℕ → Bool
  stepObs : ℕ → Observation
  resetObs : ℕ → Observation
  lossFinite : ℕ → Bool
  action : ℕ → ℕ

/-- Result of one iteration's frame loop: the local loop variables and the
process buffer after the appends. -/
structure FrameResult where
  vars : LoopVars
  process_buffer : List (List ℚ)
deriving DecidableEq, Repr

/-- The `for i in range(training_param.NUM_FRAMES)` loop of `train` (lines
129-136): each frame steps the environment, appends the converted observation
to the process buffer (`_update_process_buffer`) and runs `_update_loop`.
`t0` is the global frame counter of the first frame. -/
def frameLoop (orc : Oracle) : ℕ → ℕ → LoopVars → List (List ℚ) → FrameResult
  | _, 0, v, pb => { vars := v, process_buffer := pb }
  | t0, n + 1, v, pb =>
    let pb := pb ++ [convert_obs (orc.stepObs t0)]
    let v := _update_loop v.done (orc.stepReward t0) (orc.stepDone t0)
      v.alive_frame v.total_reward v.reward
    frameLoop orc (t0 + 1) n v pb

/-- The mutable state of `train` threaded across loop iterations. -/
structure LoopState where
  observation_num : ℕ
  epsilon : ℚ
  epoch_num : ℕ
  done : Bool
  frameClock : ℕ
  process_buffer : List (List ℚ)
  replay_buffer : List Transition
  total_reward : ℚ
  alive_frame : ℕ
deriving DecidableEq, Repr

/-- Observable events of one executed iteration of the `while` loop of
`train`. -/
structure IterRecord where
  idx : ℕ
  doneBefore : Bool
  resetEnv : Bool
  shuffled : Bool
  pbAfterReset : List (List ℚ)
  epsAfter : ℚ
  frameStart : ℕ
  doneAfter : Bool
  storedReward : ℚ
  stepRewardSum : ℚ
  bufSize : ℕ
  trained : Bool
  batchSampled : Option ℕ
  targetSynced : Bool
  broke : Bool
  saveCalled : Bool
  saveWrite : Option String
deriving DecidableEq, Repr, Inhabited

/-- One pass through the body of the `while observation_num < iterations`
loop of `train` (lines 105-162), in source order: `_need_reset`, the epsilon
decay, `_convert_process_buffer` into `initial_state`,
`_reset_process_buffer`, the frame loop, `_store_new_state`, the
replay-buffer-size-guarded training step with `target_train()` and the
non-finite-loss `break`, and the periodic `save`.  Returns the iteration's
event record and the successor state. -/
def runIter (tp : TrainingParam) (orc : Oracle) (iterations nSubpaths : ℕ)
    (savePath : Option String) (name : String) (st : LoopState) :
    IterRecord × LoopState :=
  let nr := _need_reset nSubpaths (orc.resetObs st.observation_num)
    st.observation_num st.epoch_num st.done st.process_buffer
  let eps := epsUpdate tp st.epsilon
  let initial_state := nr.process_buffer.flatten
  let fr := frameLoop orc st.frameClock tp.NUM_FRAMES
    { done := _init_local_train_loop.2, reward := _init_local_train_loop.1,
      total_reward := st.total_reward, alive_frame := st.alive_frame }
    _reset_process_buffer
  let tr : Transition :=
    { s := initial_state, a := orc.action st.observation_num,
      r := fr.vars.reward, d := fr.vars.done, s2 := fr.process_buffer.flatten }
  let buf := rbAdd tp.BUFFER_SIZE st.replay_buffer tr
  let trained := decide (tp.MIN_OBSERVATION < buf.length)
  let broke := trained && !(orc.lossFinite st.observation_num)
  let saveCalled := !broke &&
    (st.observation_num % 1000 == 0 || st.observation_num == iterations - 1)
  let itRec : IterRecord :=
    { idx := st.observation_num, doneBefore := st.done,
      resetEnv := nr.didReset, shuffled := nr.didShuffle,
      pbAfterReset := nr.process_buffer, epsAfter := eps,
      frameStart := st.frameClock, doneAfter := fr.vars.done,
      storedReward := tr.r,
      stepRewardSum := ((List.range tp.NUM_FRAMES).map
        (fun i => orc.stepReward (st.frameClock + i))).sum,
      bufSize := buf.length, trained := trained,
      batchSampled := if trained then some tp.MINIBATCH_SIZE else none,
      targetSynced := trained, broke := broke, saveCalled := saveCalled,
      saveWrite := if saveCalled then save name savePath else none }
  let st' : LoopState :=
    { observation_num := st.observation_num + 1, epsilon := eps,
      epoch_num := nr.epoch_num, done := fr.vars.done,
      frameClock := st.frameClock + tp.NUM_FRAMES,
      process_buffer := fr.process_buffer, replay_buffer := buf,
      total_reward := fr.vars.total_reward,
      alive_frame := fr.vars.alive_frame }
  (itRec, st')

/-- The `while observation_num < iterations` loop of `train`, fuelled:
the loop exits when the guard fails or when a non-finite training loss
triggers the `break`. -/
def runLoop (tp : TrainingParam) (orc : Oracle) (iterations nSubpaths : ℕ)
    (savePath : Option String) (name : String) :
    ℕ → LoopState → List IterRecord
  | 0, _ => []
  | fuel + 1, st =>
    if st.observation_num < iterations then
      let step := runIter tp orc iterations nSubpaths savePath name st
      if step.1.broke then [step.1]
      else step.1 :: runLoop tp orc iterations nSubpaths savePath name fuel step.2
    else []

/-- The state `train` starts its loop from: `observation_num = 0`,
`epsilon = INITIAL_EPSILON`, `epoch_num = 0`, the initial
`_init_global_train_loop` / `_init_local_train_loop` values, an empty
process buffer (from `__init__`) and a fresh replay buffer. -/
def initState (tp : TrainingParam) : LoopState :=
  { observation_num := 0, epsilon := tp.INITIAL_EPSILON, epoch_num := 0,
    done := _init_local_train_loop.2, frameClock := 0, process_buffer := [],
    replay_buffer := [], total_reward := _init_global_train_loop.2,
    alive_frame := _init_global_train_loop.1 }

/-- The sequence of iteration records produced by one call
`train(env, iterations, save_path, logdir)`: at most `iterations` loop
iterations from the initial state. -/
def trainTrace (tp : TrainingParam) (orc : Oracle) (iterations nSubpaths : ℕ)
    (savePath : Option String) (name : String) : List IterRecord :=
  runLoop tp orc iterations nSubpaths savePath name iterations (initState tp)

/-- Helper for `argmaxIdx`: scans the remaining values, keeping the index and
value of the best seen so far (strict improvement only, so the first maximum
wins, as `np.argmax` does). -/
def argmaxPair : ℕ → ℕ × ℚ → List ℚ → ℕ × ℚ
  | _, best, [] => best
  | i, best, x :: xs => argmaxPair (i + 1) (if best.2 < x then (i, x) else best) xs

/-- Index of the first maximum of a list of predicted action values. -/
def argmaxIdx (q : List ℚ) : ℕ :=
  match q with
  | [] => 0
  | x :: xs => (argmaxPair 1 (0, x) xs).1

/-- Modelled from the spec: the Q-network's `predict_movement` (its source
file is not under `src/`); the spec says "with probability epsilon choose a
uniformly random discrete action index, otherwise choose the action
maximizing the network's predicted value".  `q` is the network's predicted
value vector, `randDraw` the uniform draw in `[0, 1)` and `randAction` the
uniformly random action index. -/
def predict_movement (q : List ℚ) (randDraw : ℚ) (randAction : ℕ)
    (epsilon : ℚ) : ℕ :=
  if randDraw < epsilon then randAction else argmaxIdx q

/-- `DeepQAgent.my_act` (lines 49-53): queries the network with
`epsilon=0.0` and returns `int(predict_movement_int)`. -/
def my_act (q : List ℚ) (randDraw : ℚ) (randAction : ℕ) : ℕ :=
  predict_movement q randDraw randAction 0

/-! Concrete inputs used to instantiate the theorems. -/

/-- A small concrete observation. -/
def obsW : Observation :=
  { rho := [1/2], line_status := [1], topo_vect := [2] }

/-- Generic concrete training parameters (frame count 1, epsilon from 1 down
to 1/100 over 4 iterations, training deferred until 2 samples are stored). -/
def tpW : TrainingParam :=
  { NUM_FRAMES := 1, INITIAL_EPSILON := 1, FINAL_EPSILON := 1/100,
    EPSILON_DECAY := 4, MIN_OBSERVATION := 2, MINIBATCH_SIZE := 32,
    BUFFER_SIZE := 10 }

/-- Training parameters under which the very first iteration already trains
(`MIN_OBSERVATION = 0`). -/
def tpT : TrainingParam :=
  { NUM_FRAMES := 1, INITIAL_EPSILON := 1, FINAL_EPSILON := 1/100,
    EPSILON_DECAY := 4, MIN_OBSERVATION := 0, MINIBATCH_SIZE := 32,
    BUFFER_SIZE := 10 }

/-- Training parameters with a frame count of 2. -/
def tpN2 : TrainingParam :=
  { NUM_FRAMES := 2, INITIAL_EPSILON := 1, FINAL_EPSILON := 1/100,
    EPSILON_DECAY := 4, MIN_OBSERVATION := 2, MINIBATCH_SIZE := 32,
    BUFFER_SIZE := 10 }

/-- A benign environment/network oracle: reward 1 per step, never done,
always-finite loss. -/
def orW : Oracle :=
  { stepReward := fun _ => 1, stepDone := fun _ => false,
    stepObs := fun _ => obsW, resetObs := fun _ => obsW,
    lossFinite := fun _ => true, action := fun _ => 0 }

/-- An oracle whose environment returns reward 5 on every step. -/
def orR5 : Oracle :=
  { stepReward := fun _ => 5, stepDone := fun _ => false,
    stepObs := fun _ => obsW, resetObs := fun _ => obsW,
    lossFinite := fun _ => true, action := fun _ => 0 }

/-- An oracle whose network always reports a non-finite loss. -/
def orBad : Oracle :=
  { stepReward := fun _ => 1, stepDone := fun _ => false,
    stepObs := fun _ => obsW, resetObs := fun _ => obsW,
    lossFinite := fun _ => false, action := fun _ => 0 }

/-! ### IEEE binary64 model of the epsilon decay

The source updates epsilon with Python float (IEEE binary64) arithmetic
(`train`, lines 116-117).  A finite double is a value `m * 2^e` with
`|m| < 2^53`; each operation rounds its exact result to 53 significant bits,
to nearest, ties to even.  The model below represents doubles by integer
pairs and implements exactly that rounding; exponents are unbounded, which
is faithful in the epsilon range (no overflow or underflow occurs there). -/

/-- A finite IEEE binary64 value `m * 2^e`.  The representation is not
required to be normalized; `val` gives the exact value it denotes. -/
structure F64 where
  m : ℤ
  e : ℤ
deriving DecidableEq, Repr

/-- The exact rational value of a binary64. -/
def val (x : F64) : ℚ := (x.m : ℚ) * (2 : ℚ) ^ x.e

/-- The significand fits in 53 bits, as for every finite double. -/
def Fnormal (x : F64) : Prop := x.m.natAbs < 2 ^ 53

instance (x : F64) : Decidable (Fnormal x) :=
  Nat.decLt x.m.natAbs (2 ^ 53)

/-- Number of excess significand bits of `m`: the smallest `k` with
`m / 2^k < 2^53`.  Fuelled structural recursion; `excess` supplies fuel `m`,
always enough since the argument halves each step. -/
def excessAux : ℕ → ℕ → ℕ
  | 0, _ => 0
  | fuel + 1, m => if m < 2 ^ 53 then 0 else excessAux fuel (m / 2) + 1

/-- Number of excess significand bits of `m`. -/
def excess (m : ℕ) : ℕ := excessAux m m

/-- Truncated 53-bit significand of `m`. -/
def rq (m : ℕ) : ℕ := m / 2 ^ excess m

/-- Discarded low bits of `m`. -/
def rr (m : ℕ) : ℕ := m % 2 ^ excess m

/-- Whether rounding `m` to 53 bits rounds up: the discarded part exceeds
half an ulp, or equals half an ulp with an odd truncated significand
(round-to-nearest, ties to even). -/
def roundUp (m : ℕ) : Bool :=
  decide (2 ^ excess m / 2 < rr m)
  || (decide (rr m = 2 ^ excess m / 2) && decide (rq m % 2 = 1))

/-- Rounded 53-bit significand of `m` (before carry normalization). -/
def rq2 (m : ℕ) : ℕ := if roundUp m then rq m + 1 else rq m

/-- Round the nonnegative exact value `m * 2^e` to 53 significand bits, to
nearest, ties to even; a carry up to `2^53` renormalizes to `2^52` with a
bumped exponent. -/
def roundPos (m : ℕ) (e : ℤ) : ℕ × ℤ :=
  if excess m = 0 then (m, e)
  else if rq2 m = 2 ^ 53 then (2 ^ 52, e + (excess m : ℤ) + 1)
  else (rq2 m, e + (excess m : ℤ))

/-- Round the signed exact value `m * 2^e` to the nearest binary64 (ties to
even); IEEE rounding is symmetric in sign. -/
def roundI (m : ℤ) (e : ℤ) : F64 :=
  if 0 ≤ m then ⟨((roundPos m.toNat e).1 : ℤ), (roundPos m.toNat e).2⟩
  else ⟨-((roundPos (-m).toNat e).1 : ℤ), (roundPos (-m).toNat e).2⟩

/-- IEEE binary64 subtraction: the exact difference, correctly rounded. -/
def fsub (a b : F64) : F64 :=
  roundI (a.m * 2 ^ (a.e - min a.e b.e).toNat
      - b.m * 2 ^ (b.e - min a.e b.e).toNat)
    (min a.e b.e)

/-- IEEE binary64 strict comparison (comparison of finite doubles is exact
value comparison). -/
def fltB (a b : F64) : Bool :=
  decide (a.m * 2 ^ (a.e - min a.e b.e).toNat
    < b.m * 2 ^ (b.e - min a.e b.e).toNat)

/-- IEEE binary64 division by `2^p`: exact in the normal range (with
unbounded exponents, always), as with `EPSILON_DECAY = 4.0`. -/
def fdivPow2 (x : F64) (p : ℕ) : F64 := ⟨x.m, x.e - (p : ℤ)⟩

/-- The epsilon update of `train` (lines 116-117) under IEEE binary64
arithmetic: `if epsilon > FINAL_EPSILON: epsilon -= step`, where `step` is
the float value of `(INITIAL_EPSILON - FINAL_EPSILON) / EPSILON_DECAY`
(a loop constant). -/
def epsUpdateF (f s e : F64) : F64 := if fltB f e then fsub e s else e

/-- The float epsilon after `n` loop iterations from the initial value
`i` (`epsilon = training_param.INITIAL_EPSILON`, line 94). -/
def epsAtF (i f s : F64) : ℕ → F64
  | 0 => i
  | n + 1 => epsUpdateF f s (epsAtF i f s n)

/-- `1.0` as a binary64. -/
def oneF : F64 := ⟨4503599627370496, -52⟩

/-- `0.01` as a binary64 (the double nearest to 1/100). -/
def hundredthF : F64 := ⟨5764607523034235, -59⟩

/-- The float step `(1.0 - 0.01) / 4`: a correctly rounded subtraction
followed by the exact division by `4.0 = 2^2`. -/
def stepC : F64 := fdivPow2 (fsub oneF hundredthF) 2

/-! Basic facts about one loop iteration and the fuelled loop. -/

theorem runIter_idx (tp : TrainingParam) (orc : Oracle) (it nS : ℕ)
    (sp : Option String) (nm : String) (st : LoopState) :
    (runIter tp orc it nS sp nm st).1.idx = st.observation_num := rfl

theorem runIter_obs_num (tp : TrainingParam) (orc : Oracle) (it nS : ℕ)
    (sp : Option String) (nm : String) (st : LoopState) :
    (runIter tp orc it nS sp nm st).2.observation_num
      = st.observation_num + 1 := rfl

theorem runIter_doneBefore (tp : TrainingParam) (orc : Oracle) (it nS : ℕ)
    (sp : Option String) (nm : String) (st : LoopState) :
    (runIter tp orc it nS sp nm st).1.doneBefore = st.done := rfl

theorem runIter_doneAfter (tp : TrainingParam) (orc : Oracle) (it nS : ℕ)
    (sp : Option String) (nm : String) (st : LoopState) :
    (runIter tp orc it nS sp nm st).2.done
      = (runIter tp orc it nS sp nm st).1.doneAfter := rfl

/-- Any property that holds of the record of every possible iteration holds
of every record in the fuelled loop. -/
theorem runLoop_records (tp : TrainingParam) (orc : Oracle) (it nS : ℕ)
    (sp : Option String) (nm : String) (P : IterRecord → Prop)
    (h : ∀ st, P (runIter tp orc it nS sp nm st).1) :
    ∀ fuel st, ∀ r ∈ runLoop tp orc it nS sp nm fuel st, P r := by
  intro fuel
  induction fuel with
  | zero => intro st r hr; simp [runLoop] at hr
  | succ n ih =>
    intro st r hr
    simp only [runLoop] at hr
    by_cases hlt : st.observation_num < it
    · rw [if_pos hlt] at hr
      by_cases hb : (runIter tp orc it nS sp nm st).1.broke
      · rw [if_pos hb] at hr
        rcases List.mem_singleton.mp hr with rfl
        exact h st
      · rw [if_neg hb] at hr
        rcases List.mem_cons.mp hr with rfl | hr'
        · exact h st
        · exact ih _ r hr'
    · rw [if_neg hlt] at hr
      exact absurd hr (List.not_mem_nil r)

/-- Every record in the fuelled loop has an index at least the starting
`observation_num`. -/
theorem runLoop_idx_ge (tp : TrainingParam) (orc : Oracle) (it nS : ℕ)
    (sp : Option String) (nm : String) :
    ∀ fuel st, ∀ r ∈ runLoop tp orc it nS sp nm fuel st,
      st.observation_num ≤ r.idx := by
  intro fuel
  induction fuel with
  | zero => intro st r hr; simp [runLoop] at hr
  | succ n ih =>
    intro st r hr
    simp only [runLoop] at hr
    by_cases hlt : st.observation_num < it
    · rw [if_pos hlt] at hr
      by_cases hb : (runIter tp orc it nS sp nm st).1.broke
      · rw [if_pos hb] at hr
        rcases List.mem_singleton.mp hr with rfl
        exact Nat.le_of_eq (runIter_idx tp orc it nS sp nm st).symm
      · rw [if_neg hb] at hr
        rcases List.mem_cons.mp hr with rfl | hr'
        · exact Nat.le_of_eq (runIter_idx tp orc it nS sp nm st).symm
        · have h2 := ih _ r hr'
          rw [runIter_obs_num] at h2
          omega
    · rw [if_neg hlt] at hr
      exact absurd hr (List.not_mem_nil r)

/-- A record that triggered the `break` ends the trace: every other record
comes no later. -/
theorem runLoop_broke_last (tp : TrainingParam) (orc : Oracle) (it nS : ℕ)
    (sp : Option String) (nm : String) :
    ∀ fuel st, ∀ r ∈ runLoop tp orc it nS sp nm fuel st, r.broke = true →
      ∀ r' ∈ runLoop tp orc it nS sp nm fuel st, r'.idx ≤ r.idx := by
  intro fuel
  induction fuel with
  | zero => intro st r hr; simp [runLoop] at hr
  | succ n ih =>
    intro st r hr hbroke r' hr'
    simp only [runLoop] at hr hr'
    by_cases hlt : st.observation_num < it
    · rw [if_pos hlt] at hr hr'
      by_cases hb : (runIter tp orc it nS sp nm st).1.broke
      · rw [if_pos hb] at hr hr'
        rcases List.mem_singleton.mp hr with rfl
        rcases List.mem_singleton.mp hr' with rfl
        exact le_rfl
      · rw [if_neg hb] at hr hr'
        rcases List.mem_cons.mp hr with rfl | hrt
        · exact absurd hbroke hb
        · rcases List.mem_cons.mp hr' with rfl | hrt'
          · have h2 := runLoop_idx_ge tp orc it nS sp nm n _ r hrt
            rw [runIter_obs_num] at h2
            rw [runIter_idx]
            omega
          · exact ih _ r hrt hbroke r' hrt'
    · rw [if_neg hlt] at hr
      exact absurd hr (List.not_mem_nil r)

/-- Successive records are linked: each record's `doneBefore` is the previous
record's `doneAfter`, and the first record's `doneBefore` is the incoming
`done`. -/
theorem runLoop_done_chain (tp : TrainingParam) (orc : Oracle) (it nS : ℕ)
    (sp : Option String) (nm : String) :
    ∀ fuel st,
      List.Chain' (fun a b => b.doneBefore = a.doneAfter)
        (runLoop tp orc it nS sp nm fuel st)
      ∧ ∀ r, (runLoop tp orc it nS sp nm fuel st).head? = some r →
          r.doneBefore = st.done := by
  intro fuel
  induction fuel with
  | zero => intro st; simp [runLoop]
  | succ n ih =>
    intro st
    simp only [runLoop]
    by_cases hlt : st.observation_num < it
    · rw [if_pos hlt]
      by_cases hb : (runIter tp orc it nS sp nm st).1.broke
      · rw [if_pos hb]
        refine ⟨List.chain'_singleton _, ?_⟩
        intro r hr
        rcases Option.some_injective _ hr with rfl
        exact runIter_doneBefore tp orc it nS sp nm st
      · rw [if_neg hb]
        constructor
        · rw [List.chain'_cons']
          refine ⟨?_, (ih _).1⟩
          intro b hbmem
          have hhead := (ih ((runIter tp orc it nS sp nm st).2)).2 b
          have h3 := hhead (Option.mem_def.mp hbmem)
          rw [h3, runIter_doneAfter]
        · intro r hr
          rcases Option.some_injective _ (by simpa using hr) with rfl
          exact runIter_doneBefore tp orc it nS sp nm st
    · rw [if_neg hlt]
      simp

/-- After `n + 1` frames the local `done` is the `temp_done` of the last
frame, i.e. the environment's termination signal at global frame `t0 + n`. -/
theorem frameLoop_done (orc : Oracle) :
    ∀ n t0 v pb,
      (frameLoop orc t0 (n + 1) v pb).vars.done = orc.stepDone (t0 + n) := by
  intro n
  induction n with
  | zero => intro t0 v pb; rfl
  | succ m ih =>
    intro t0 v pb
    have h1 : frameLoop orc t0 (m + 1 + 1) v pb
        = frameLoop orc (t0 + 1) (m + 1)
            (_update_loop v.done (orc.stepReward t0) (orc.stepDone t0)
              v.alive_frame v.total_reward v.reward)
            (pb ++ [convert_obs (orc.stepObs t0)]) := rfl
    rw [h1, ih]
    congr 1
    omega

/-- The frame loop never changes the local `reward` variable:
`_update_loop` returns its `reward` argument unchanged. -/
theorem frameLoop_reward (orc : Oracle) :
    ∀ n t0 v pb, (frameLoop orc t0 n v pb).vars.reward = v.reward := by
  intro n
  induction n with
  | zero => intro t0 v pb; rfl
  | succ m ih =>
    intro t0 v pb
    have h1 : frameLoop orc t0 (m + 1) v pb
        = frameLoop orc (t0 + 1) m
            (_update_loop v.done (orc.stepReward t0) (orc.stepDone t0)
              v.alive_frame v.total_reward v.reward)
            (pb ++ [convert_obs (orc.stepObs t0)]) := rfl
    rw [h1, ih]
    rfl

/-- The running best value never decreases along the scan. -/
theorem argmaxPair_le_val : ∀ (l : List ℚ) (i : ℕ) (best : ℕ × ℚ),
    best.2 ≤ (argmaxPair i best l).2 := by
  intro l
  induction l with
  | nil => intro i best; exact le_rfl
  | cons x xs ih =>
    intro i best
    refine le_trans ?_ (ih (i + 1) (if best.2 < x then (i, x) else best))
    by_cases hb : best.2 < x
    · rw [if_pos hb]; exact le_of_lt hb
    · rw [if_neg hb]

/-- The final best value dominates every scanned element. -/
theorem argmaxPair_mem_le : ∀ (l : List ℚ) (i : ℕ) (best : ℕ × ℚ),
    ∀ x ∈ l, x ≤ (argmaxPair i best l).2 := by
  intro l
  induction l with
  | nil => intro i best x hx; cases hx
  | cons y ys ih =>
    intro i best x hx
    rcases List.mem_cons.mp hx with rfl | hx'
    · refine le_trans ?_ (argmaxPair_le_val ys (i + 1)
        (if best.2 < x then (i, x) else best))
      by_cases hb : best.2 < x
      · rw [if_pos hb]
      · rw [if_neg hb]; exact le_of_not_lt hb
    · exact ih (i + 1) _ x hx'

/-- The scan result is the initial best or an (index, value) pair taken from
the scanned list at the matching offset. -/
theorem argmaxPair_attained : ∀ (l : List ℚ) (i : ℕ) (best : ℕ × ℚ),
    argmaxPair i best l = best
    ∨ ∃ k, k < l.length ∧ argmaxPair i best l = (i + k, l.getD k 0) := by
  intro l
  induction l with
  | nil => intro i best; exact Or.inl rfl
  | cons y ys ih =>
    intro i best
    have hstep : argmaxPair i best (y :: ys)
        = argmaxPair (i + 1) (if best.2 < y then (i, y) else best) ys := rfl
    rcases ih (i + 1) (if best.2 < y then (i, y) else best) with h | ⟨k, hk, hres⟩
    · by_cases hb : best.2 < y
      · right
        refine ⟨0, by simp, ?_⟩
        rw [hstep, h, if_pos hb]
        simp [List.getD]
      · left
        rw [hstep, h, if_neg hb]
    · right
      refine ⟨k + 1, by simpa using Nat.succ_lt_succ hk, ?_⟩
      rw [hstep, hres]
      refine Prod.ext ?_ ?_
      · simp; omega
      · simp [List.getD]

/-- `argmaxIdx` returns a valid index whose value dominates every entry of a
non-empty list. -/
theorem argmaxIdx_spec (x : ℚ) (xs : List ℚ) :
    argmaxIdx (x :: xs) < (x :: xs).length
    ∧ ∀ i, i < (x :: xs).length →
        (x :: xs).getD i 0 ≤ (x :: xs).getD (argmaxIdx (x :: xs)) 0 := by
  have hval : (x :: xs).getD (argmaxIdx (x :: xs)) 0
      = (argmaxPair 1 (0, x) xs).2 := by
    rcases argmaxPair_attained xs 1 (0, x) with h | ⟨k, hk, h⟩
    · rw [argmaxIdx, h]
      rfl
    · rw [argmaxIdx, h]
      have h1 : 1 + k = k + 1 := Nat.add_comm 1 k
      rw [h1]
      simp [List.getD]
  constructor
  · rcases argmaxPair_attained xs 1 (0, x) with h | ⟨k, hk, h⟩
    · rw [argmaxIdx, h]; simp
    · rw [argmaxIdx, h]; simp; omega
  · intro i hi
    rw [hval]
    match i with
    | 0 =>
      exact le_trans (le_refl x) (argmaxPair_le_val xs 1 (0, x))
    | j + 1 =>
      have hj : j < xs.length := by simpa using hi
      have hgd : (x :: xs).getD (j + 1) 0 = xs.getD j 0 := by
        simp [List.getD]
      rw [hgd, List.getD_eq_getElem xs 0 hj]
      exact argmaxPair_mem_le xs 1 (0, x) _ (List.getElem_mem hj)

/-- `_need_reset` resets exactly when the carried `done` is set or the
iteration is the first one. -/
theorem _need_reset_didReset (nS : ℕ) (newObs : Observation)
    (obn epn : ℕ) (d : Bool) (pb : List (List ℚ)) :
    (_need_reset nS newObs obn epn d pb).didReset = (d || (obn == 0)) := by
  rw [_need_reset]
  by_cases hc : (d || obn == 0) = true
  · rw [if_pos hc, hc]
  · rw [if_neg hc]
    simp only [Bool.not_eq_true] at hc
    rw [hc]

/-- On reset, `_need_reset` leaves the process buffer cleared and seeded with
the converted new observation. -/
theorem _need_reset_seed (nS : ℕ) (newObs : Observation)
    (obn epn : ℕ) (d : Bool) (pb : List (List ℚ)) :
    (_need_reset nS newObs obn epn d pb).didReset = true →
    (_need_reset nS newObs obn epn d pb).process_buffer
      = [convert_obs newObs] := by
  rw [_need_reset]
  by_cases hc : (d || obn == 0) = true
  · rw [if_pos hc]
    intro
    rfl
  · rw [if_neg hc]
    intro h
    exact absurd h (by simp)

/-- With a positive iteration count the trace is non-empty: the first
iteration always produces a record, whether or not it breaks. -/
theorem trainTrace_ne_nil (tp : TrainingParam) (orc : Oracle) (it nS : ℕ)
    (sp : Option String) (nm : String) (h : 0 < it) :
    trainTrace tp orc it nS sp nm ≠ [] := by
  rw [trainTrace]
  cases it with
  | zero => omega
  | succ n =>
    simp only [runLoop]
    rw [if_pos (show (initState tp).observation_num < n + 1 from h)]
    by_cases hb : (runIter tp orc (n + 1) nS sp nm (initState tp)).1.broke
    · rw [if_pos hb]; simp
    · rw [if_neg hb]; simp

/-! Facts about the binary64 rounding. -/

/-- With enough fuel, dividing by `2^excessAux` brings the significand under
`2^53`. -/
theorem excessAux_div_lt (fuel : ℕ) :
    ∀ m, m ≤ fuel → m / 2 ^ excessAux fuel m < 2 ^ 53 := by
  induction fuel with
  | zero =>
    intro m hm
    have hm0 : m = 0 := Nat.le_zero.mp hm
    subst hm0
    simp [excessAux]
  | succ fuel ih =>
    intro m hm
    rw [excessAux]
    by_cases h : m < 2 ^ 53
    · rw [if_pos h]
      simpa using h
    · rw [if_neg h]
      have h2 : m / 2 ≤ fuel := by omega
      have h3 := ih (m / 2) h2
      rw [show 2 ^ (excessAux fuel (m / 2) + 1) = 2 * 2 ^ excessAux fuel (m / 2)
          from by ring]
      rw [← Nat.div_div_eq_div_mul]
      exact h3

/-- `excessAux` is minimal: a positive excess means the significand was at
least `2^52 · 2^excess`. -/
theorem excessAux_le (fuel : ℕ) :
    ∀ m, m ≤ fuel → 0 < excessAux fuel m → 2 ^ 52 * 2 ^ excessAux fuel m ≤ m := by
  induction fuel with
  | zero =>
    intro m hm h
    simp [excessAux] at h
  | succ fuel ih =>
    intro m hm hpos
    rw [excessAux] at hpos ⊢
    by_cases h : m < 2 ^ 53
    · rw [if_pos h] at hpos
      omega
    · rw [if_neg h] at hpos ⊢
      by_cases hj0 : excessAux fuel (m / 2) = 0
      · rw [hj0]
        have : (2:ℕ) ^ 52 * 2 ^ (0 + 1) = 2 ^ 53 := by ring
        omega
      · have h2 : m / 2 ≤ fuel := by omega
        have h3 := ih (m / 2) h2 (Nat.pos_of_ne_zero hj0)
        have h4 : 2 ^ 52 * 2 ^ (excessAux fuel (m / 2) + 1)
            = 2 * (2 ^ 52 * 2 ^ excessAux fuel (m / 2)) := by ring
        omega

/-- The truncated significand fits in 53 bits. -/
theorem rq_lt (m : ℕ) : rq m < 2 ^ 53 :=
  excessAux_div_lt m m le_rfl

/-- A positive excess means the truncated significand is normalized
(at least `2^52`). -/
theorem rq_ge (m : ℕ) (h : excess m ≠ 0) : 2 ^ 52 ≤ rq m := by
  have h1 := excessAux_le m m le_rfl (Nat.pos_of_ne_zero h)
  rw [rq]
  rw [Nat.le_div_iff_mul_le (Nat.pos_pow_of_pos _ (by norm_num))]
  calc 2 ^ 52 * 2 ^ excess m ≤ m := h1
  -- orientation fix below

/-- The output significand of `roundPos` fits in 53 bits. -/
theorem roundPos_fst_lt (m : ℕ) (e : ℤ) : (roundPos m e).1 < 2 ^ 53 := by
  rw [roundPos]
  by_cases hk : excess m = 0
  · rw [if_pos hk]
    have h1 := rq_lt m
    rw [rq, hk] at h1
    simpa using h1
  · rw [if_neg hk]
    by_cases hc : rq2 m = 2 ^ 53
    · rw [if_pos hc]
      norm_num
    · rw [if_neg hc]
      have h1 := rq_lt m
      rw [rq2]
      by_cases hu : roundUp m = true
      · rw [if_pos hu]
        rw [rq2, if_pos hu] at hc
        omega
      · rw [if_neg hu]
        omega

/-- A round-up decision implies the discarded bits were nonzero. -/
theorem roundUp_rr_pos (m : ℕ) (hk : excess m ≠ 0) (h : roundUp m = true) :
    0 < rr m := by
  have h2 : 1 < 2 ^ excess m := Nat.one_lt_two_pow_iff.mpr hk
  rw [roundUp] at h
  simp only [Bool.or_eq_true, Bool.and_eq_true, decide_eq_true_eq] at h
  rcases h with h | ⟨h, _⟩ <;> omega

/-- Value of the `roundPos` output when rounding actually happens: the
truncated or the bumped significand at the coarser scale, the latter only
when the discarded bits were nonzero. -/
theorem roundPos_val (m : ℕ) (e : ℤ) (hk : excess m ≠ 0) :
    (((roundPos m e).1 : ℚ) * 2 ^ (roundPos m e).2
        = (rq m : ℚ) * 2 ^ (e + (excess m : ℤ)))
    ∨ (((roundPos m e).1 : ℚ) * 2 ^ (roundPos m e).2
        = ((rq m : ℚ) + 1) * 2 ^ (e + (excess m : ℤ)) ∧ 0 < rr m) := by
  have hqlt : rq m < 2 ^ 53 := rq_lt m
  rw [roundPos, if_neg hk]
  by_cases hc : rq2 m = 2 ^ 53
  · rw [if_pos hc]
    have hup : roundUp m = true := by
      by_contra hu
      rw [rq2, if_neg hu] at hc
      omega
    have hq1 : rq m + 1 = 2 ^ 53 := by
      rw [rq2, if_pos hup] at hc
      omega
    right
    refine ⟨?_, roundUp_rr_pos m hk hup⟩
    show ((2 ^ 52 : ℕ) : ℚ) * 2 ^ (e + (excess m : ℤ) + 1)
      = ((rq m : ℚ) + 1) * 2 ^ (e + (excess m : ℤ))
    have h1 : ((rq m : ℚ) + 1) = 2 ^ 53 := by exact_mod_cast hq1
    rw [h1, zpow_add₀ (two_ne_zero) (e + (excess m : ℤ)) 1, zpow_one]
    push_cast
    ring
  · rw [if_neg hc]
    by_cases hu : roundUp m = true
    · right
      refine ⟨?_, roundUp_rr_pos m hk hu⟩
      show ((rq2 m : ℕ) : ℚ) * 2 ^ (e + (excess m : ℤ))
        = ((rq m : ℚ) + 1) * 2 ^ (e + (excess m : ℤ))
      rw [rq2, if_pos hu]
      push_cast
      ring
    · left
      show ((rq2 m : ℕ) : ℚ) * 2 ^ (e + (excess m : ℤ))
        = (rq m : ℚ) * 2 ^ (e + (excess m : ℤ))
      rw [rq2, if_neg hu]

/-- No binary64 (53-bit significand `n` at any scale) lies strictly between
two consecutive multiples of a normalized ulp. -/
theorem no_rep_between (q n : ℕ) (u t : ℤ) (hq : 2 ^ 52 ≤ q) (hn : n < 2 ^ 53)
    (h1 : (q : ℚ) * 2 ^ u < (n : ℚ) * 2 ^ t)
    (h2 : (n : ℚ) * 2 ^ t < ((q : ℚ) + 1) * 2 ^ u) : False := by
  have hut : u ≤ t := by
    by_contra hut
    push_neg at hut
    have htu : t ≤ u - 1 := by omega
    have c1 : (n : ℚ) * 2 ^ t < 2 ^ 53 * 2 ^ t := by
      apply mul_lt_mul_of_pos_right _ (zpow_pos (by norm_num) t)
      exact_mod_cast hn
    have c2 : (2 : ℚ) ^ 53 * 2 ^ t ≤ 2 ^ 53 * 2 ^ (u - 1) := by
      apply mul_le_mul_of_nonneg_left _ (by positivity)
      exact zpow_le_zpow_right₀ (by norm_num) htu
    have c3 : (2 : ℚ) ^ 53 * 2 ^ (u - 1) = 2 ^ 52 * 2 ^ u := by
      rw [show ((2 : ℚ) ^ 53 : ℚ) = (2 : ℚ) ^ (53 : ℤ) from by norm_num,
        show ((2 : ℚ) ^ 52 : ℚ) = (2 : ℚ) ^ (52 : ℤ) from by norm_num,
        ← zpow_add₀ (two_ne_zero : (2:ℚ) ≠ 0), ← zpow_add₀ (two_ne_zero : (2:ℚ) ≠ 0)]
      congr 1
      omega
    have c4 : (2 : ℚ) ^ 52 * 2 ^ u ≤ (q : ℚ) * 2 ^ u := by
      apply mul_le_mul_of_nonneg_right _ (le_of_lt (zpow_pos (by norm_num) u))
      exact_mod_cast hq
    linarith
  have hd : ((t - u).toNat : ℤ) = t - u := by omega
  have hNt : (n : ℚ) * 2 ^ t = ((n * 2 ^ (t - u).toNat : ℕ) : ℚ) * 2 ^ u := by
    push_cast
    rw [show ((2 : ℚ) ^ ((t - u).toNat) : ℚ) = (2 : ℚ) ^ (((t - u).toNat : ℤ)) from
      (zpow_natCast (2:ℚ) (t - u).toNat).symm]
    rw [hd, mul_assoc, ← zpow_add₀ (two_ne_zero : (2:ℚ) ≠ 0)]
    congr 2
    omega
  rw [hNt] at h1 h2
  have hpos : (0 : ℚ) < 2 ^ u := zpow_pos (by norm_num) u
  have g1 : q < n * 2 ^ (t - u).toNat := by
    have := (mul_lt_mul_right hpos).mp h1
    exact_mod_cast this
  have g2 : n * 2 ^ (t - u).toNat < q + 1 := by
    have := (mul_lt_mul_right hpos).mp h2
    exact_mod_cast this
  omega

/-- Shifting a power of two from the exponent into the significand. -/
theorem scale_shift (a : ℕ) (e : ℤ) (k : ℕ) :
    (a : ℚ) * 2 ^ (e + (k : ℤ)) = ((a * 2 ^ k : ℕ) : ℚ) * 2 ^ e := by
  push_cast
  rw [zpow_add₀ (two_ne_zero : (2:ℚ) ≠ 0), zpow_natCast]
  ring

/-- Rounding never overshoots a binary64 that the exact value is below:
`roundPos` output is at most any 53-bit representable value at or above the
input. -/
theorem roundPos_le_rep (m n : ℕ) (e t : ℤ) (hn : n < 2 ^ 53)
    (h : (m : ℚ) * 2 ^ e ≤ (n : ℚ) * 2 ^ t) :
    ((roundPos m e).1 : ℚ) * 2 ^ (roundPos m e).2 ≤ (n : ℚ) * 2 ^ t := by
  by_cases hk : excess m = 0
  · rw [roundPos, if_pos hk]
    simpa using h
  · have hq52 := rq_ge m hk
    have hpos_e : (0:ℚ) < 2 ^ e := zpow_pos (by norm_num) e
    have hqmNat : rq m * 2 ^ excess m ≤ m := by
      rw [rq]
      exact Nat.div_mul_le_self _ _
    rcases roundPos_val m e hk with hR | ⟨hR, hrr⟩
    · rw [hR, scale_shift]
      refine le_trans ?_ h
      apply mul_le_mul_of_nonneg_right _ hpos_e.le
      exact_mod_cast hqmNat
    · rw [hR]
      by_contra hY
      push_neg at hY
      have hstrictNat : rq m * 2 ^ excess m < m := by
        have h1 : 2 ^ excess m * rq m + rr m = m := by
          rw [rq, rr]
          exact Nat.div_add_mod m (2 ^ excess m)
        have h2 : rq m * 2 ^ excess m = 2 ^ excess m * rq m :=
          Nat.mul_comm _ _
        omega
      have hstrict : (rq m : ℚ) * 2 ^ (e + (excess m : ℤ)) < (m : ℚ) * 2 ^ e := by
        rw [scale_shift]
        apply mul_lt_mul_of_pos_right _ hpos_e
        exact_mod_cast hstrictNat
      exact no_rep_between (rq m) n (e + (excess m : ℤ)) t hq52 hn
        (lt_of_lt_of_le hstrict h) hY

/-- Rounding never undershoots a binary64 that the exact value is above:
`roundPos` output is at least any 53-bit representable value at or below the
input. -/
theorem roundPos_ge_rep (m n : ℕ) (e t : ℤ) (hn : n < 2 ^ 53)
    (h : (n : ℚ) * 2 ^ t ≤ (m : ℚ) * 2 ^ e) :
    (n : ℚ) * 2 ^ t ≤ ((roundPos m e).1 : ℚ) * 2 ^ (roundPos m e).2 := by
  by_cases hk : excess m = 0
  · rw [roundPos, if_pos hk]
    simpa using h
  · have hq52 := rq_ge m hk
    have hpos_e : (0:ℚ) < 2 ^ e := zpow_pos (by norm_num) e
    have hupNat : m < (rq m + 1) * 2 ^ excess m := by
      have h1 : 2 ^ excess m * rq m + rr m = m := by
        rw [rq, rr]
        exact Nat.div_add_mod m (2 ^ excess m)
      have h2 : (rq m + 1) * 2 ^ excess m = 2 ^ excess m * rq m + 2 ^ excess m := by
        ring
      have h3 : rr m < 2 ^ excess m := by
        rw [rr]
        exact Nat.mod_lt _ (Nat.pos_pow_of_pos _ (by norm_num))
      omega
    have hupQ : (m : ℚ) * 2 ^ e < ((rq m : ℚ) + 1) * 2 ^ (e + (excess m : ℤ)) := by
      have he : ((rq m : ℚ) + 1) * 2 ^ (e + (excess m : ℤ))
          = (((rq m + 1) * 2 ^ excess m : ℕ) : ℚ) * 2 ^ e := by
        rw [← scale_shift]
        push_cast
        ring
      rw [he]
      apply mul_lt_mul_of_pos_right _ hpos_e
      exact_mod_cast hupNat
    rcases roundPos_val m e hk with hR | ⟨hR, _⟩
    · rw [hR]
      by_contra hY
      push_neg at hY
      exact no_rep_between (rq m) n (e + (excess m : ℤ)) t hq52 hn hY
        (lt_of_le_of_lt h hupQ)
    · rw [hR]
      exact le_trans h hupQ.le

/-- Unfolding `val` on a literal. -/
theorem val_mk (m e : ℤ) : val ⟨m, e⟩ = (m : ℚ) * 2 ^ e := rfl

/-- `roundI` always produces a 53-bit significand. -/
theorem roundI_normal (x e : ℤ) : Fnormal (roundI x e) := by
  rw [roundI, Fnormal]
  by_cases hx : 0 ≤ x
  · rw [if_pos hx]
    show (((roundPos x.toNat e).1 : ℤ)).natAbs < 2 ^ 53
    have := roundPos_fst_lt x.toNat e
    omega
  · rw [if_neg hx]
    show (-(((roundPos (-x).toNat e).1 : ℤ))).natAbs < 2 ^ 53
    have := roundPos_fst_lt (-x).toNat e
    omega

/-- Aligning a binary64 to a coarser exponent leaves its value unchanged. -/
theorem align_val (a : F64) (e : ℤ) (he : e ≤ a.e) :
    (a.m : ℚ) * 2 ^ ((a.e - e).toNat : ℕ) * 2 ^ e = val a := by
  rw [val, mul_assoc, ← zpow_natCast (2:ℚ) (a.e - e).toNat,
    ← zpow_add₀ (two_ne_zero : (2:ℚ) ≠ 0)]
  congr 2
  omega

/-- The float comparison decides exactly the value comparison. -/
theorem fltB_iff (a b : F64) : fltB a b = true ↔ val a < val b := by
  rw [fltB, decide_eq_true_eq]
  have h1 := align_val a (min a.e b.e) (min_le_left _ _)
  have h2 := align_val b (min a.e b.e) (min_le_right _ _)
  have hpos : (0:ℚ) < 2 ^ (min a.e b.e) := zpow_pos (by norm_num) _
  constructor
  · intro h
    rw [← h1, ← h2]
    apply mul_lt_mul_of_pos_right _ hpos
    exact_mod_cast h
  · intro h
    rw [← h1, ← h2] at h
    have := (mul_lt_mul_right hpos).mp h
    exact_mod_cast this

/-- Rounding a signed exact value never overshoots a binary64 at or above
it. -/
theorem val_roundI_le (x e : ℤ) (y : F64) (hy : Fnormal y)
    (h : (x : ℚ) * 2 ^ e ≤ val y) : val (roundI x e) ≤ val y := by
  rw [roundI]
  by_cases hx : 0 ≤ x
  · rw [if_pos hx]
    have hym : 0 ≤ y.m := by
      by_contra hym
      push_neg at hym
      have hneg : val y < 0 :=
        mul_neg_of_neg_of_pos (by exact_mod_cast hym)
          (zpow_pos (by norm_num) y.e)
      have hxe : (0:ℚ) ≤ (x:ℚ) * 2 ^ e :=
        mul_nonneg (by exact_mod_cast hx) (zpow_pos (by norm_num) e).le
      linarith
    have hn : y.m.toNat < 2 ^ 53 := by
      rw [Fnormal] at hy
      omega
    have hvy : (y.m.toNat : ℚ) * 2 ^ y.e = val y := by
      rw [val]
      congr 1
      exact_mod_cast Int.toNat_of_nonneg hym
    have hrep : (x.toNat : ℚ) * 2 ^ e ≤ (y.m.toNat : ℚ) * 2 ^ y.e := by
      have e1 : ((x.toNat : ℕ) : ℚ) = (x : ℚ) := by
        exact_mod_cast Int.toNat_of_nonneg hx
      rw [e1, hvy]
      exact h
    have hmain := roundPos_le_rep x.toNat y.m.toNat e y.e hn hrep
    calc val ⟨((roundPos x.toNat e).1 : ℤ), (roundPos x.toNat e).2⟩
        = ((roundPos x.toNat e).1 : ℚ) * 2 ^ (roundPos x.toNat e).2 := by
          rw [val_mk]
          push_cast
          ring
      _ ≤ (y.m.toNat : ℚ) * 2 ^ y.e := hmain
      _ = val y := hvy
  · rw [if_neg hx]
    push_neg at hx
    have hvneg : val ⟨-(((roundPos (-x).toNat e).1 : ℤ)), (roundPos (-x).toNat e).2⟩
        = -(((roundPos (-x).toNat e).1 : ℚ) * 2 ^ (roundPos (-x).toNat e).2) := by
      rw [val_mk]
      push_cast
      ring
    have hposr : (0:ℚ) ≤ ((roundPos (-x).toNat e).1 : ℚ)
        * 2 ^ (roundPos (-x).toNat e).2 :=
      mul_nonneg (by positivity) (zpow_pos (by norm_num) _).le
    rw [hvneg]
    by_cases hyv : 0 ≤ val y
    · linarith
    · push_neg at hyv
      have hym : y.m < 0 := by
        by_contra hym
        push_neg at hym
        have : 0 ≤ val y :=
          mul_nonneg (by exact_mod_cast hym) (zpow_pos (by norm_num) y.e).le
        linarith
      have hn : (-y.m).toNat < 2 ^ 53 := by
        rw [Fnormal] at hy
        omega
      have e1 : (((-x).toNat : ℕ) : ℚ) = -(x : ℚ) := by
        exact_mod_cast Int.toNat_of_nonneg (by omega : (0:ℤ) ≤ -x)
      have e2 : (((-y.m).toNat : ℕ) : ℚ) = -(y.m : ℚ) := by
        exact_mod_cast Int.toNat_of_nonneg (by omega : (0:ℤ) ≤ -y.m)
      have hprep : ((-y.m).toNat : ℚ) * 2 ^ y.e ≤ ((-x).toNat : ℚ) * 2 ^ e := by
        rw [e1, e2, val] at *
        rw [neg_mul, neg_mul]
        linarith
      have hmain := roundPos_ge_rep (-x).toNat (-y.m).toNat e y.e hn hprep
      have hvy2 : ((-y.m).toNat : ℚ) * 2 ^ y.e = -val y := by
        rw [val, e2]
        ring
      linarith

/-- Subtracting a nonnegative binary64 does not increase the value:
the exact difference is below the minuend, and rounding cannot overshoot a
representable bound. -/
theorem val_fsub_le (a b : F64) (ha : Fnormal a) (hb : 0 ≤ val b) :
    val (fsub a b) ≤ val a := by
  rw [fsub]
  apply val_roundI_le _ _ a ha
  have hkey : ((a.m * 2 ^ (a.e - min a.e b.e).toNat
      - b.m * 2 ^ (b.e - min a.e b.e).toNat : ℤ) : ℚ) * 2 ^ (min a.e b.e)
      = val a - val b := by
    push_cast
    rw [sub_mul, align_val a (min a.e b.e) (min_le_left _ _),
      align_val b (min a.e b.e) (min_le_right _ _)]
  rw [hkey]
  linarith

/-- `fsub` always produces a 53-bit significand. -/
theorem fsub_normal (a b : F64) : Fnormal (fsub a b) := by
  rw [fsub]
  exact roundI_normal _ _

/-- The float epsilon keeps a 53-bit significand along the run. -/
theorem epsAtF_normal (i f s : F64) (hi : Fnormal i) :
    ∀ n, Fnormal (epsAtF i f s n) := by
  intro n
  induction n with
  | zero => exact hi
  | succ n ih =>
    rw [epsAtF, epsUpdateF]
    by_cases h : fltB f (epsAtF i f s n) = true
    · rw [if_pos h]
      exact fsub_normal _ _
    · rw [if_neg h]
      exact ih

/-! The claims. -/

/-- C8: `convert_obs` returns the flat concatenation, in order, of the
observation's line loading ratios (`rho`), line connection status
(`line_status`) and topology vector (`topo_vect`): the output's length is the
sum of the three lengths and its entries are read off the three fields at the
matching offsets.  As a pure function of the observation it mutates neither
the observation nor any agent state. -/
theorem c8_convert_obs_concat (o : Observation) :
    convert_obs o = o.rho ++ o.line_status ++ o.topo_vect
    ∧ (convert_obs o).length
        = o.rho.length + o.line_status.length + o.topo_vect.length
    ∧ (∀ i, i < o.rho.length → (convert_obs o)[i]? = o.rho[i]?)
    ∧ (∀ i, i < o.line_status.length →
        (convert_obs o)[o.rho.length + i]? = o.line_status[i]?)
    ∧ (∀ i, i < o.topo_vect.length →
        (convert_obs o)[o.rho.length + o.line_status.length + i]?
          = o.topo_vect[i]?) := by
  have hassoc : convert_obs o = o.rho ++ (o.line_status ++ o.topo_vect) := by
    rw [convert_obs, List.append_assoc]
  refine ⟨rfl, by simp [convert_obs]; omega, ?_, ?_, ?_⟩
  · intro i hi
    rw [hassoc]
    exact List.getElem?_append_left hi
  · intro i hi
    rw [hassoc,
      List.getElem?_append_right (show o.rho.length ≤ o.rho.length + i by omega)]
    have h1 : o.rho.length + i - o.rho.length = i := by omega
    rw [h1]
    exact List.getElem?_append_left hi
  · intro i hi
    rw [convert_obs,
      List.getElem?_append_right (show (o.rho ++ o.line_status).length
        ≤ o.rho.length + o.line_status.length + i by simp)]
    have h1 : o.rho.length + o.line_status.length + i
        - (o.rho ++ o.line_status).length = i := by simp
    rw [h1]

/-- Witness for C8 at a concrete observation. -/
theorem c8_witness :
    convert_obs obsW = obsW.rho ++ obsW.line_status ++ obsW.topo_vect
    ∧ (convert_obs obsW)[obsW.rho.length + 0]? = obsW.line_status[0]? :=
  ⟨(c8_convert_obs_concat obsW).1,
   (c8_convert_obs_concat obsW).2.2.2.1 0 (by simp [obsW])⟩

/-- C9: `_convert_process_buffer` raises a `RuntimeError` whenever the
training parameters have `NUM_FRAMES ≠ 1`, so only a frame count of exactly 1
is supported; with `NUM_FRAMES = 1` it never raises on a non-empty process
buffer. -/
theorem c9_convert_raises (tp : TrainingParam) (pb : List (List ℚ)) :
    (tp.NUM_FRAMES ≠ 1 → _convert_process_buffer tp pb
        = Except.error "RuntimeError: This h_need_resetas not been tested with self.training_param.NUM_FRAMES != 1 for now")
    ∧ (tp.NUM_FRAMES = 1 → pb ≠ [] →
        _convert_process_buffer tp pb = Except.ok pb.flatten) := by
  constructor
  · intro h
    rw [_convert_process_buffer, if_pos (by simpa using h)]
  · intro h hne
    rw [_convert_process_buffer, if_neg (by simp [h]),
      if_neg (by simpa using hne)]

/-- Witness for C9: frame count 2 raises; frame count 1 succeeds on a
non-empty buffer. -/
theorem c9_witness :
    (tpN2.NUM_FRAMES ≠ 1 ∧ _convert_process_buffer tpN2 [[1]]
        = Except.error "RuntimeError: This h_need_resetas not been tested with self.training_param.NUM_FRAMES != 1 for now")
    ∧ (tpW.NUM_FRAMES = 1 ∧ ([[1]] : List (List ℚ)) ≠ []
        ∧ _convert_process_buffer tpW [[1]] = Except.ok [1]) :=
  ⟨⟨by simp [tpN2], (c9_convert_raises tpN2 [[1]]).1 (by simp [tpN2])⟩,
   ⟨rfl, by simp, (c9_convert_raises tpW [[1]]).2 rfl (by simp)⟩⟩

/-- C10: `my_act` queries the network with epsilon fixed to 0.0, so for any
nonnegative uniform draw the returned action index is the greedy
(value-maximizing) one: the random exploratory branch is never taken, and the
returned index is valid and attains the maximal predicted value. -/
theorem c10_my_act_greedy (q : List ℚ) (randDraw : ℚ) (randAction : ℕ)
    (h : 0 ≤ randDraw) :
    my_act q randDraw randAction = argmaxIdx q
    ∧ (∀ i, i < q.length →
        q.getD i 0 ≤ q.getD (my_act q randDraw randAction) 0)
    ∧ (q ≠ [] → my_act q randDraw randAction < q.length) := by
  have hgr : my_act q randDraw randAction = argmaxIdx q := by
    rw [my_act, predict_movement, if_neg (not_lt.mpr h)]
  refine ⟨hgr, ?_, ?_⟩
  · intro i hi
    rw [hgr]
    match q, hi with
    | x :: xs, hi => exact (argmaxIdx_spec x xs).2 i hi
  · intro hne
    rw [hgr]
    match q, hne with
    | x :: xs, _ => exact (argmaxIdx_spec x xs).1

/-- Witness for C10 at a concrete value vector. -/
theorem c10_witness :
    (0 : ℚ) ≤ 0
    ∧ my_act [1, 3, 2] 0 5 = argmaxIdx [1, 3, 2]
    ∧ ([1, 3, 2] : List ℚ).getD 2 0
        ≤ ([1, 3, 2] : List ℚ).getD (my_act [1, 3, 2] 0 5) 0
    ∧ my_act [1, 3, 2] 0 5 < ([1, 3, 2] : List ℚ).length :=
  ⟨le_refl 0, (c10_my_act_greedy [1, 3, 2] 0 5 le_rfl).1,
   (c10_my_act_greedy [1, 3, 2] 0 5 le_rfl).2.1 2 (by simp),
   (c10_my_act_greedy [1, 3, 2] 0 5 le_rfl).2.2 (by simp)⟩

/-- A binary64 with nonnegative significand has nonnegative value. -/
theorem val_nonneg (x : F64) (h : 0 ≤ x.m) : 0 ≤ val x :=
  mul_nonneg (by exact_mod_cast h) (zpow_pos (by norm_num) x.e).le

/-- C2 counterexample: under the source's IEEE binary64 arithmetic, with
INITIAL_EPSILON = 1.0, FINAL_EPSILON = 0.01 and EPSILON_DECAY = 4, the guard
is still true after three decrements, a fourth decrement fires, and the
resulting epsilon 360287970189636 * 2^-55 = 0.009999999999999898… is
strictly below the configured final value — refuting "at no iteration is
epsilon strictly below the configured final value". -/
theorem c2_counterexample :
    stepC = ⟨8917127262193582, -55⟩
    ∧ epsAtF oneF hundredthF stepC 4 = ⟨360287970189636, -55⟩
    ∧ fltB hundredthF (epsAtF oneF hundredthF stepC 3) = true
    ∧ fltB (epsAtF oneF hundredthF stepC 4) hundredthF = true
    ∧ val (epsAtF oneF hundredthF stepC 4) < val hundredthF :=
  ⟨rfl, rfl, rfl, rfl,
   (fltB_iff (epsAtF oneF hundredthF stepC 4) hundredthF).mp rfl⟩

/-- C2 (amended): over every run of the training loop, under the source's
IEEE binary64 arithmetic, epsilon starts at the configured initial value and
is monotonically non-increasing; at every iteration where it is strictly
above the configured final value it decreases by one correctly-rounded float
subtraction of the float-computed constant step
`(INITIAL_EPSILON - FINAL_EPSILON) / EPSILON_DECAY`, and at every other
iteration — and forever after the first such one — it stays unchanged; it
can land strictly below the configured final value after its last decrement
(by a floating-point rounding error), as the counterexample shows.  The
guard compares exact float values. -/
theorem c2_amended (i f s : F64) (hi : Fnormal i) (hs : 0 ≤ val s) :
    epsAtF i f s 0 = i
    ∧ (∀ n, (fltB f (epsAtF i f s n) = true →
          epsAtF i f s (n + 1) = fsub (epsAtF i f s n) s)
        ∧ (fltB f (epsAtF i f s n) = false →
          epsAtF i f s (n + 1) = epsAtF i f s n))
    ∧ (∀ n, val (epsAtF i f s (n + 1)) ≤ val (epsAtF i f s n))
    ∧ (∀ n m, fltB f (epsAtF i f s n) = false → n ≤ m →
        epsAtF i f s m = epsAtF i f s n)
    ∧ (∀ n, fltB f (epsAtF i f s n) = true ↔ val f < val (epsAtF i f s n)) := by
  refine ⟨rfl, ?_, ?_, ?_, fun n => fltB_iff f (epsAtF i f s n)⟩
  · intro n
    constructor
    · intro h
      rw [epsAtF, epsUpdateF, if_pos h]
    · intro h
      rw [epsAtF, epsUpdateF, if_neg (by rw [h]; exact Bool.false_ne_true)]
  · intro n
    rw [epsAtF, epsUpdateF]
    by_cases h : fltB f (epsAtF i f s n) = true
    · rw [if_pos h]
      exact val_fsub_le _ s (epsAtF_normal i f s hi n) hs
    · rw [if_neg h]
  · intro n m h hnm
    induction m, hnm using Nat.le_induction with
    | base => rfl
    | succ m hm ih =>
      rw [epsAtF, epsUpdateF, ih, if_neg (by rw [h]; exact Bool.false_ne_true)]

/-- Witness for C2's amended claim at the counterexample's parameters. -/
theorem c2_witness :
    Fnormal oneF
    ∧ 0 ≤ val stepC
    ∧ epsAtF oneF hundredthF stepC 0 = oneF
    ∧ val (epsAtF oneF hundredthF stepC 1) ≤ val (epsAtF oneF hundredthF stepC 0)
    ∧ (fltB hundredthF (epsAtF oneF hundredthF stepC 0) = true →
        epsAtF oneF hundredthF stepC 1
          = fsub (epsAtF oneF hundredthF stepC 0) stepC)
    ∧ (fltB hundredthF (epsAtF oneF hundredthF stepC 5) = false →
        epsAtF oneF hundredthF stepC 7 = epsAtF oneF hundredthF stepC 5) :=
  ⟨of_decide_eq_true rfl, val_nonneg stepC (of_decide_eq_true rfl),
   (c2_amended oneF hundredthF stepC (of_decide_eq_true rfl)
     (val_nonneg stepC (of_decide_eq_true rfl))).1,
   (c2_amended oneF hundredthF stepC (of_decide_eq_true rfl)
     (val_nonneg stepC (of_decide_eq_true rfl))).2.2.1 0,
   ((c2_amended oneF hundredthF stepC (of_decide_eq_true rfl)
     (val_nonneg stepC (of_decide_eq_true rfl))).2.1 0).1,
   fun h => (c2_amended oneF hundredthF stepC (of_decide_eq_true rfl)
     (val_nonneg stepC (of_decide_eq_true rfl))).2.2.2.1 5 7 h (by omega)⟩

/-- C4 counterexample: at the very first iteration, with two chronics
subpaths, `_need_reset` resets the environment but does not reshuffle the
chronics (the bumped epoch counter 1 is not a multiple of 2), refuting the
claim that every reset iteration also reshuffles. -/
theorem c4_counterexample :
    (_need_reset 2 obsW 0 0 false []).didReset = true
    ∧ (_need_reset 2 obsW 0 0 false []).didShuffle = false :=
  ⟨rfl, rfl⟩

/-- C4 (amended): at every iteration where an episode has ended or which is
the first one, `_need_reset` resets the environment, but reshuffles the
chronics only when the bumped epoch counter is a multiple of the number of
chronics subpaths. -/
theorem c4_amended (nSubpaths : ℕ) (newObs : Observation)
    (observation_num epoch_num : ℕ) (done : Bool) (pb : List (List ℚ))
    (h : done = true ∨ observation_num = 0) :
    (_need_reset nSubpaths newObs observation_num epoch_num done pb).didReset
        = true
    ∧ (_need_reset nSubpaths newObs observation_num epoch_num done pb).didShuffle
        = ((epoch_num + 1) % nSubpaths == 0) := by
  have hc : (done || observation_num == 0) = true := by
    rcases h with h | h
    · rw [h]; rfl
    · rw [h]; simp
  rw [_need_reset, if_pos hc]
  exact ⟨rfl, rfl⟩

/-- Witness for C4's amended claim at a concrete first iteration. -/
theorem c4_witness :
    (false = true ∨ (0 : ℕ) = 0)
    ∧ (_need_reset 3 obsW 0 0 false []).didReset = true
    ∧ (_need_reset 3 obsW 0 0 false []).didShuffle = ((0 + 1) % 3 == 0) :=
  ⟨Or.inr rfl, (c4_amended 3 obsW 0 0 false [] (Or.inr rfl)).1,
   (c4_amended 3 obsW 0 0 false [] (Or.inr rfl)).2⟩

/-- C5: at every iteration the environment is reset exactly when the carried
done flag is set or the iteration is the first one (`observation_num = 0`);
on reset the process buffer is cleared and seeded with the converted new
observation; the carried done flag of each iteration is the environment's
termination signal on that iteration's last frame, and each record's incoming
flag is the previous record's outgoing one (the first iteration starts with
done = False). -/
theorem c5_reset_iff (tp : TrainingParam) (orc : Oracle) (it nS : ℕ)
    (sp : Option String) (nm : String) (hNF : tp.NUM_FRAMES = 1) :
    (∀ r ∈ trainTrace tp orc it nS sp nm,
        r.resetEnv = (r.doneBefore || (r.idx == 0))
        ∧ (r.resetEnv = true →
            r.pbAfterReset = [convert_obs (orc.resetObs r.idx)])
        ∧ r.doneAfter = orc.stepDone (r.frameStart + tp.NUM_FRAMES - 1))
    ∧ List.Chain' (fun a b => b.doneBefore = a.doneAfter)
        (trainTrace tp orc it nS sp nm)
    ∧ (∀ r, (trainTrace tp orc it nS sp nm).head? = some r →
        r.doneBefore = false) := by
  refine ⟨?_, (runLoop_done_chain tp orc it nS sp nm it (initState tp)).1,
    fun r hr => (runLoop_done_chain tp orc it nS sp nm it (initState tp)).2 r hr⟩
  apply runLoop_records
  intro st
  refine ⟨?_, ?_, ?_⟩
  · exact _need_reset_didReset nS (orc.resetObs st.observation_num)
      st.observation_num st.epoch_num st.done st.process_buffer
  · exact _need_reset_seed nS (orc.resetObs st.observation_num)
      st.observation_num st.epoch_num st.done st.process_buffer
  · show (frameLoop orc st.frameClock tp.NUM_FRAMES
        { done := _init_local_train_loop.2, reward := _init_local_train_loop.1,
          total_reward := st.total_reward, alive_frame := st.alive_frame }
        _reset_process_buffer).vars.done
      = orc.stepDone (st.frameClock + tp.NUM_FRAMES - 1)
    rw [hNF]
    exact frameLoop_done orc 0 st.frameClock _ _

/-- Witness for C5 at a concrete run. -/
theorem c5_witness :
    tpW.NUM_FRAMES = 1
    ∧ (trainTrace tpW orW 2 1 none "agent").head!.resetEnv
        = ((trainTrace tpW orW 2 1 none "agent").head!.doneBefore
            || ((trainTrace tpW orW 2 1 none "agent").head!.idx == 0))
    ∧ List.Chain' (fun a b => b.doneBefore = a.doneAfter)
        (trainTrace tpW orW 2 1 none "agent") :=
  ⟨rfl,
   ((c5_reset_iff tpW orW 2 1 none "agent" rfl).1 _
     (List.head!_mem_self
       (trainTrace_ne_nil tpW orW 2 1 none "agent" (by norm_num)))).1,
   (c5_reset_iff tpW orW 2 1 none "agent" rfl).2.1⟩

/-- C6: at every iteration, exactly when the replay buffer size exceeds
MIN_OBSERVATION, one minibatch of MINIBATCH_SIZE transitions is sampled, one
network training step is performed and the target network is synchronized
immediately afterwards; otherwise no sampling, no training step and no
synchronization occur. -/
theorem c6_training_guard (tp : TrainingParam) (orc : Oracle) (it nS : ℕ)
    (sp : Option String) (nm : String) (hNF : tp.NUM_FRAMES = 1) :
    ∀ r ∈ trainTrace tp orc it nS sp nm,
      (r.trained = true ↔ tp.MIN_OBSERVATION < r.bufSize)
      ∧ (r.trained = true →
          r.batchSampled = some tp.MINIBATCH_SIZE ∧ r.targetSynced = true)
      ∧ (r.trained = false → r.batchSampled = none ∧ r.targetSynced = false) := by
  apply runLoop_records
  intro st
  simp only [runIter]
  refine ⟨⟨of_decide_eq_true, fun h => decide_eq_true h⟩, ?_, ?_⟩
  · intro h
    rw [h]
    exact ⟨if_pos rfl, rfl⟩
  · intro h
    rw [h]
    exact ⟨by simp, rfl⟩

/-- Witness for C6 at a run whose first iteration trains. -/
theorem c6_witness :
    tpT.NUM_FRAMES = 1
    ∧ ((trainTrace tpT orW 1 1 none "agent").head!.trained = true
        ↔ tpT.MIN_OBSERVATION < (trainTrace tpT orW 1 1 none "agent").head!.bufSize)
    ∧ (trainTrace tpT orW 1 1 none "agent").head!.batchSampled
        = some tpT.MINIBATCH_SIZE
    ∧ (trainTrace tpT orW 1 1 none "agent").head!.targetSynced = true :=
  ⟨rfl,
   (c6_training_guard tpT orW 1 1 none "agent" rfl _
     (List.head!_mem_self
       (trainTrace_ne_nil tpT orW 1 1 none "agent" (by norm_num)))).1,
   ((c6_training_guard tpT orW 1 1 none "agent" rfl _
     (List.head!_mem_self
       (trainTrace_ne_nil tpT orW 1 1 none "agent" (by norm_num)))).2.1 rfl).1,
   ((c6_training_guard tpT orW 1 1 none "agent" rfl _
     (List.head!_mem_self
       (trainTrace_ne_nil tpT orW 1 1 none "agent" (by norm_num)))).2.1 rfl).2⟩

/-- C7 counterexample: with a save path given, at iteration 0 — whose index
is a multiple of the saving interval 1000 — a non-finite training loss breaks
the loop before the save statement, so no checkpoint is written at that
iteration. -/
theorem c7_counterexample :
    (trainTrace tpT orBad 1 1 (some "sp") "agent").length = 1
    ∧ (trainTrace tpT orBad 1 1 (some "sp") "agent").head!.idx % 1000 = 0
    ∧ (trainTrace tpT orBad 1 1 (some "sp") "agent").head!.broke = true
    ∧ (trainTrace tpT orBad 1 1 (some "sp") "agent").head!.saveCalled = false
    ∧ (trainTrace tpT orBad 1 1 (some "sp") "agent").head!.saveWrite = none :=
  ⟨rfl, rfl, rfl, rfl, rfl⟩

/-- C7 (amended): network weights are persisted under the subdirectory of the
save path named by the agent's name, at exactly every iteration whose index
is a multiple of 1000 or equals `iterations - 1`, except an iteration aborted
by the non-finite-loss break, which skips its save; when the save path is
None nothing is written. -/
theorem c7_amended (tp : TrainingParam) (orc : Oracle) (it nS : ℕ)
    (sp : Option String) (nm : String) (hNF : tp.NUM_FRAMES = 1) :
    ∀ r ∈ trainTrace tp orc it nS sp nm,
      r.saveCalled = (!r.broke && (r.idx % 1000 == 0 || r.idx == it - 1))
      ∧ r.saveWrite = (if r.saveCalled = true then save nm sp else none)
      ∧ (sp = none → r.saveWrite = none) := by
  apply runLoop_records
  intro st
  refine ⟨rfl, rfl, ?_⟩
  intro h
  subst h
  show (if (runIter tp orc it nS none nm st).1.saveCalled = true
      then save nm none else none) = none
  by_cases hc : (runIter tp orc it nS none nm st).1.saveCalled = true
  · rw [if_pos hc]
    rfl
  · rw [if_neg hc]

/-- Witness for C7's amended claim: the first iteration of a healthy run
saves under `sp/agent`. -/
theorem c7_witness :
    tpT.NUM_FRAMES = 1
    ∧ (trainTrace tpT orW 1 1 (some "sp") "agent").head!.saveCalled
        = (!(trainTrace tpT orW 1 1 (some "sp") "agent").head!.broke
            && ((trainTrace tpT orW 1 1 (some "sp") "agent").head!.idx % 1000 == 0
              || (trainTrace tpT orW 1 1 (some "sp") "agent").head!.idx == 1 - 1))
    ∧ (trainTrace tpT orW 1 1 (some "sp") "agent").head!.saveWrite
        = (if (trainTrace tpT orW 1 1 (some "sp") "agent").head!.saveCalled = true
            then save "agent" (some "sp") else none) :=
  ⟨rfl,
   (c7_amended tpT orW 1 1 (some "sp") "agent" rfl _
     (List.head!_mem_self
       (trainTrace_ne_nil tpT orW 1 1 (some "sp") "agent" (by norm_num)))).1,
   (c7_amended tpT orW 1 1 (some "sp") "agent" rfl _
     (List.head!_mem_self
       (trainTrace_ne_nil tpT orW 1 1 (some "sp") "agent" (by norm_num)))).2.1⟩

/-- C3: whenever a training step of the loop reports a non-finite loss, the
loop terminates immediately: no iteration of the trace has a later index. -/
theorem c3_nonfinite_loss_halts (tp : TrainingParam) (orc : Oracle)
    (it nS : ℕ) (sp : Option String) (nm : String) (hNF : tp.NUM_FRAMES = 1) :
    ∀ r ∈ trainTrace tp orc it nS sp nm,
      r.trained = true → orc.lossFinite r.idx = false →
      ∀ r' ∈ trainTrace tp orc it nS sp nm, r'.idx ≤ r.idx := by
  intro r hr htr hfin r' hr'
  have hbroke : r.broke = true := by
    have hb := runLoop_records tp orc it nS sp nm
      (fun s => s.broke = (s.trained && !(orc.lossFinite s.idx)))
      (fun st => rfl) it (initState tp) r hr
    rw [hb, htr, hfin]
    rfl
  exact runLoop_broke_last tp orc it nS sp nm it (initState tp) r hr hbroke r' hr'

/-- Witness for C3 at a run whose first iteration trains with a non-finite
loss. -/
theorem c3_witness :
    tpT.NUM_FRAMES = 1
    ∧ (trainTrace tpT orBad 2 1 none "agent").head!.trained = true
    ∧ orBad.lossFinite (trainTrace tpT orBad 2 1 none "agent").head!.idx = false
    ∧ (trainTrace tpT orBad 2 1 none "agent").head!.idx
        ≤ (trainTrace tpT orBad 2 1 none "agent").head!.idx :=
  ⟨rfl, rfl, rfl,
   c3_nonfinite_loss_halts tpT orBad 2 1 none "agent" rfl _
     (List.head!_mem_self
       (trainTrace_ne_nil tpT orBad 2 1 none "agent" (by norm_num)))
     rfl rfl _
     (List.head!_mem_self
       (trainTrace_ne_nil tpT orBad 2 1 none "agent" (by norm_num)))⟩

/-- C1 (code evaluation at the failing input): with a single frame whose
environment step returns reward 5, the transition appended to the replay
buffer carries reward 0 — `_update_loop` accumulates `temp_reward` into
`total_reward` only and returns the stored `reward` argument unchanged — so
the claimed per-step reward sum (here 5) is not what is stored. -/
theorem c1_reward_bug :
    (trainTrace tpW orR5 1 1 none "agent").length = 1
    ∧ (trainTrace tpW orR5 1 1 none "agent").head!.storedReward = 0
    ∧ orR5.stepReward ((trainTrace tpW orR5 1 1 none "agent").head!.frameStart) = 5
    ∧ tpW.NUM_FRAMES = 1
    ∧ (_update_loop false 5 false 0 0 0).reward = 0
    ∧ (_update_loop false 5 false 0 0 0).total_reward = 0 + 5 :=
  ⟨rfl, rfl, rfl, rfl, rfl, rfl⟩

end DeepQAgentSpec
